import Mathlib

/-!
Verification development for `CheckpointFinder.py` (tim000x3/RandomTools).

The program's core is `extract_and_search(zip_path, username)`:
it extracts a ZIP archive into a temporary directory, scans each file listed
at the top level of that directory with the regular expression

    "author": "(?P<author>.*?)",.*?"text": "(?P<text>.*?)"

keeps the matches whose author contains `username` as a substring, and
renders per-file blocks of deduplicated, sorted lines `"{author} - {text}"`.

This file embeds that program in Lean:
* a character-level matcher implementing the lazy (non-greedy) semantics of
  the fixed pattern above, together with Python's `re.findall` scan
  (leftmost matches, non-overlapping, resuming at the end of each match);
* the pure aggregation pipeline (dict building, substring filter,
  dedup + sort, block rendering, newline join);
* a small filesystem model for the effectful shell (temporary directory,
  archive opening, extraction, directory listing, opening files).
-/

/-! ### The fixed pattern, character level

The pattern (line 12 of the source) consists of three literal runs and three
lazy `.*?` gaps.  In Python `re`, `.` does not match a newline, and a lazy
quantifier consumes as little as possible, backtracking outward. -/

/-- The literal `"author": "` that opens every match. -/
def authorMarker : List Char := "\"author\": \"".data

/-- The literal `",` closing the author capture. -/
def sepMarker : List Char := "\",".data

/-- The literal `"text": "` that opens the text capture. -/
def textMarker : List Char := "\"text\": \"".data

/-- Match a literal run of characters at the head of the input, returning the
remainder on success. -/
def matchLit : List Char → List Char → Option (List Char)
  | [], s => some s
  | _ :: _, [] => none
  | l :: ls, c :: cs => if l = c then matchLit ls cs else none

/-- `(?P<x>.*?)"` : lazily capture characters (none of them `'\n'`) up to the
first `'"'`; fails if a newline or the end of input comes first. -/
def scanText : List Char → Option (List Char × List Char)
  | [] => none
  | c :: cs =>
    if c = '"' then some ([], cs)
    else if c = '\n' then none
    else (scanText cs).map (fun p => (c :: p.1, p.2))

/-- `.*?"text": "(?P<text>.*?)"` : lazily consume a (newline-free) gap until
the literal `"text": "` matches at a position from which the text capture
succeeds; on success return `(gap, text, rest)`.  If the literal matches but
the text capture fails, the gap is extended — this is the regex engine's
backtracking. -/
def scanMiddle : List Char → Option (List Char × List Char × List Char)
  | [] => none
  | c :: cs =>
    match matchLit textMarker (c :: cs) with
    | some r =>
      match scanText r with
      | some p => some ([], p.1, p.2)
      | none =>
        if c = '\n' then none
        else (scanMiddle cs).map (fun q => (c :: q.1, q.2.1, q.2.2))
    | none =>
      if c = '\n' then none
      else (scanMiddle cs).map (fun q => (c :: q.1, q.2.1, q.2.2))

/-- `(?P<author>.*?)",` followed by the middle and text parts: lazily capture
the (newline-free) author until `",` matches at a position from which the
rest of the pattern succeeds; returns `(author, gap, text, rest)`. -/
def scanAuthor : List Char → Option (List Char × List Char × List Char × List Char)
  | [] => none
  | c :: cs =>
    match matchLit sepMarker (c :: cs) with
    | some r =>
      match scanMiddle r with
      | some q => some ([], q.1, q.2.1, q.2.2)
      | none =>
        if c = '\n' then none
        else (scanAuthor cs).map (fun q => (c :: q.1, q.2))
    | none =>
      if c = '\n' then none
      else (scanAuthor cs).map (fun q => (c :: q.1, q.2))

/-- Attempt to match the whole pattern anchored at the head of `s`; on
success return the two captures and the remainder after the match. -/
def tryMatchAt (s : List Char) : Option (List Char × List Char × List Char) :=
  match matchLit authorMarker s with
  | none => none
  | some r => (scanAuthor r).map (fun q => (q.1, q.2.2.1, q.2.2.2))

theorem matchLit_length {l s r : List Char} (h : matchLit l s = some r) :
    r.length + l.length = s.length := by
  induction l generalizing s with
  | nil => simp [matchLit] at h; simp [h]
  | cons a l ih =>
    cases s with
    | nil => simp [matchLit] at h
    | cons c cs =>
      simp only [matchLit] at h
      split at h
      · have := ih h; simp [List.length_cons]; omega
      · exact absurd h (by simp)

theorem scanText_length {s : List Char} {p : List Char × List Char}
    (h : scanText s = some p) : p.2.length < s.length := by
  induction s generalizing p with
  | nil => simp [scanText] at h
  | cons c cs ih =>
    simp only [scanText] at h
    split at h
    · cases h; simp
    · split at h
      · exact absurd h (by simp)
      · cases hrec : scanText cs with
        | none => rw [hrec] at h; simp at h
        | some q =>
          rw [hrec] at h
          cases h
          have := ih hrec
          simp [List.length_cons]; omega

theorem scanMiddle_length {s : List Char} {q : List Char × List Char × List Char}
    (h : scanMiddle s = some q) : q.2.2.length < s.length := by
  induction s generalizing q with
  | nil => simp [scanMiddle] at h
  | cons c cs ih =>
    rw [scanMiddle] at h
    split at h
    next r hlit =>
      split at h
      next p hp =>
        cases h
        have h1 := scanText_length hp
        have h2 := matchLit_length hlit
        have h3 : textMarker.length = 9 := by decide
        rw [h3] at h2
        simp only [List.length_cons] at h2 ⊢
        omega
      next hp =>
        split at h
        · exact Option.noConfusion h
        · cases hrec : scanMiddle cs with
          | none => rw [hrec] at h; exact Option.noConfusion h
          | some q0 =>
            rw [hrec] at h
            simp only [Option.map] at h
            cases h
            have := ih hrec
            simp only [List.length_cons]
            omega
    next hlit =>
      split at h
      · exact Option.noConfusion h
      · cases hrec : scanMiddle cs with
        | none => rw [hrec] at h; exact Option.noConfusion h
        | some q0 =>
          rw [hrec] at h
          simp only [Option.map] at h
          cases h
          have := ih hrec
          simp only [List.length_cons]
          omega

theorem scanAuthor_length {s : List Char}
    {q : List Char × List Char × List Char × List Char}
    (h : scanAuthor s = some q) : q.2.2.2.length < s.length := by
  induction s generalizing q with
  | nil => simp [scanAuthor] at h
  | cons c cs ih =>
    rw [scanAuthor] at h
    split at h
    next r hlit =>
      split at h
      next q0 hq0 =>
        cases h
        have h1 := scanMiddle_length hq0
        have h2 := matchLit_length hlit
        have h3 : sepMarker.length = 2 := by decide
        rw [h3] at h2
        simp only [List.length_cons] at h2 ⊢
        omega
      next hq0 =>
        split at h
        · exact Option.noConfusion h
        · cases hrec : scanAuthor cs with
          | none => rw [hrec] at h; exact Option.noConfusion h
          | some q0 =>
            rw [hrec] at h
            simp only [Option.map] at h
            cases h
            have := ih hrec
            simp only [List.length_cons]
            omega
    next hlit =>
      split at h
      · exact Option.noConfusion h
      · cases hrec : scanAuthor cs with
        | none => rw [hrec] at h; exact Option.noConfusion h
        | some q0 =>
          rw [hrec] at h
          simp only [Option.map] at h
          cases h
          have := ih hrec
          simp only [List.length_cons]
          omega

theorem tryMatchAt_length {s : List Char} {q : List Char × List Char × List Char}
    (h : tryMatchAt s = some q) : q.2.2.length < s.length := by
  simp only [tryMatchAt] at h
  split at h
  · exact absurd h (by simp)
  next r hlit =>
    cases hauth : scanAuthor r with
    | none => rw [hauth] at h; simp at h
    | some q0 =>
      rw [hauth] at h; cases h
      have h1 := scanAuthor_length hauth
      have h2 := matchLit_length hlit
      have : authorMarker.length = 11 := by decide
      simp only []
      omega

/-- Fuel-indexed scan: at each position try the anchored match; on success
emit the captures and resume after the match, otherwise advance one
character.  This is `re.findall` for the fixed pattern (all matches are
nonempty, so Python's empty-match bump never triggers). -/
def findAllAux : Nat → List Char → List (List Char × List Char)
  | 0, _ => []
  | _ + 1, [] => []
  | fuel + 1, c :: cs =>
    match tryMatchAt (c :: cs) with
    | some q => (q.1, q.2.1) :: findAllAux fuel q.2.2
    | none => findAllAux fuel cs

theorem findAllAux_congr : ∀ (f1 : Nat) (s : List Char) (f2 : Nat),
    s.length ≤ f1 → s.length ≤ f2 → findAllAux f1 s = findAllAux f2 s := by
  intro f1
  induction f1 using Nat.strong_induction_on with
  | _ f1 ih =>
    intro s f2 h1 h2
    match f1, s, f2 with
    | 0, s, f2 =>
      have hs : s = [] := List.length_eq_zero.mp (Nat.le_zero.mp h1)
      subst hs
      cases f2 <;> rfl
    | f1 + 1, [], f2 => cases f2 <;> rfl
    | f1 + 1, c :: cs, 0 => simp at h2
    | g1 + 1, c :: cs, g2 + 1 =>
      simp only [List.length_cons] at h1 h2
      cases hm : tryMatchAt (c :: cs) with
      | some q =>
        have hlt := tryMatchAt_length hm
        simp only [List.length_cons] at hlt
        have e := ih g1 (Nat.lt_succ_self _) q.2.2 g2 (by omega) (by omega)
        simp only [findAllAux, hm, e]
      | none =>
        have e := ih g1 (Nat.lt_succ_self _) cs g2 (by omega) (by omega)
        simp only [findAllAux, hm, e]

/-- All matches of the pattern in `s`: leftmost, non-overlapping, each scan
resuming at the end of the previous match. -/
def findAll (s : List Char) : List (List Char × List Char) :=
  findAllAux s.length s

theorem findAll_nil : findAll [] = [] := rfl

theorem findAll_cons (c : Char) (cs : List Char) :
    findAll (c :: cs) =
      match tryMatchAt (c :: cs) with
      | some q => (q.1, q.2.1) :: findAll q.2.2
      | none => findAll cs := by
  show findAllAux (cs.length + 1) (c :: cs) = _
  cases hm : tryMatchAt (c :: cs) with
  | some q =>
    have hlt := tryMatchAt_length hm
    simp only [List.length_cons] at hlt
    have e : findAllAux cs.length q.2.2 = findAll q.2.2 :=
      findAllAux_congr cs.length q.2.2 q.2.2.length (by omega) le_rfl
    simp only [findAllAux, hm, e]
  | none =>
    simp only [findAllAux, hm]
    rfl

/-- `re.findall(pattern, content)` from line 30 of the source, returning the
`(author, text)` capture pairs as strings. -/
def matchesOf (content : String) : List (String × String) :=
  (findAll content.data).map (fun p => (String.mk p.1, String.mk p.2))

/-! ### The aggregation pipeline (pure part of `extract_and_search`)

Lines 14–46 of the source, given the decoded contents of the scanned files
(in the order the directory listing yields them). -/

/-- Python's `needle in hay` substring test on strings (case-sensitive). -/
def strContains (hay needle : List Char) : Bool :=
  needle.isPrefixOf hay ||
    match hay with
    | [] => false
    | _ :: t => strContains t needle

/-- Line 36: the formatted line `f"{author} - {text}"`. -/
def formatLine (author text : String) : String :=
  author ++ " - " ++ text

/-- The insertion-ordered dictionary `related_lines_local`: entry names in
first-insertion order, each holding its accumulated list of lines. -/
abbrev LinesDict := List (String × List String)

/-- Lines 34–36: ensure `k` is present (appending a fresh entry at the end on
first insertion, as a Python dict does) and append `v` to its list. -/
def dictAppend (d : LinesDict) (k v : String) : LinesDict :=
  if d.any (fun e => e.1 = k) then
    d.map (fun e => if e.1 = k then (e.1, e.2 ++ [v]) else e)
  else d ++ [(k, [v])]

/-- Lines 31–36: the inner loop over the matches of one file. -/
def processMatches (username fileName : String) (ms : List (String × String))
    (d : LinesDict) : LinesDict :=
  ms.foldl
    (fun d m =>
      if strContains m.1.data username.data then dictAppend d fileName (formatLine m.1 m.2)
      else d) d

/-- Lines 24–36: the outer loop over the listed files, building
`related_lines_local`.  `files` pairs each listed file name with its decoded
content, in listing order. -/
def relatedLines (username : String) (files : List (String × String)) : LinesDict :=
  files.foldl (fun d f => processMatches username f.1 (matchesOf f.2) d) []

/-- The lines one file contributes: its matches filtered by the author
substring test and formatted (the per-file slice of lines 31–36). -/
def scanFile (username content : String) : List String :=
  (matchesOf content).foldl
    (fun acc m =>
      if strContains m.1.data username.data then acc ++ [formatLine m.1 m.2]
      else acc) []

/-- Lines 41–42: `sorted(list(set(lines)))` — deduplicate by exact string
equality, then sort ascending (Lean's `String` order, like Python's, is
codepoint-lexicographic). -/
def sortedUnique (lines : List String) : List String :=
  List.insertionSort (· ≤ ·) lines.dedup

/-- Lines 43–45: the output slice one dict entry contributes — a header
line, the sorted unique lines, and the separator element `"\n"`. -/
def renderEntry (name : String) (lines : List String) : List String :=
  ("In file " ++ name ++ ":") :: (sortedUnique lines ++ ["\n"])

/-- Lines 39–45: the flat `output` list. -/
def outputList (d : LinesDict) : List String :=
  d.foldl (fun out e => out ++ renderEntry e.1 e.2) []

/-- Python's `sep.join(xs)`. -/
def pyJoin (sep : String) : List String → String
  | [] => ""
  | x :: xs => xs.foldl (fun acc y => acc ++ sep ++ y) x

/-- Lines 38–46: render the accumulated dictionary into the report. -/
def renderReport (d : LinesDict) : String :=
  pyJoin "\n" (outputList d)

/-- The pure core of `extract_and_search`: from the listed files' decoded
contents (in listing order) to the report string. -/
def searchFiles (username : String) (files : List (String × String)) : String :=
  renderReport (relatedLines username files)

/-! ### Supporting lemmas on the substring test and the dictionary -/

theorem strContains_iff {hay needle : List Char} :
    strContains hay needle = true ↔ needle <:+: hay := by
  induction hay with
  | nil =>
    rw [strContains]
    simp only [Bool.or_false]
    rw [List.isPrefixOf_iff_prefix]
    constructor
    · intro h
      exact h.isInfix
    · intro h
      exact (List.infix_nil.mp h) ▸ List.nil_prefix
  | cons c t ih =>
    rw [strContains]
    simp only [Bool.or_eq_true, List.isPrefixOf_iff_prefix, ih]
    exact (List.infix_cons_iff).symm

theorem strContains_nil (hay : List Char) : strContains hay [] = true :=
  strContains_iff.mpr List.nil_infix

/-- Keys of the dictionary, in insertion order. -/
def dictKeys (d : LinesDict) : List String := d.map Prod.fst

theorem dictAppend_pos {d : LinesDict} {k : String} (v : String)
    (h : (d.any (fun e => e.1 = k)) = true) :
    dictAppend d k v = d.map (fun e => if e.1 = k then (e.1, e.2 ++ [v]) else e) := by
  simp [dictAppend, h]

theorem dictAppend_neg {d : LinesDict} {k : String} (v : String)
    (h : ¬ (d.any (fun e => e.1 = k)) = true) :
    dictAppend d k v = d ++ [(k, [v])] := by
  simp only [dictAppend]
  rw [if_neg h]

theorem any_key_eq_mem (d : LinesDict) (k : String) :
    (d.any (fun e => e.1 = k)) = true ↔ k ∈ dictKeys d := by
  simp [dictKeys, List.any_eq_true]

theorem dictAppend_snoc {d : LinesDict} {k : String} (hk : k ∉ dictKeys d)
    (acc : List String) (v : String) :
    dictAppend (d ++ [(k, acc)]) k v = d ++ [(k, acc ++ [v])] := by
  have hany : ((d ++ [(k, acc)]).any (fun e => e.1 = k)) = true := by
    simp [List.any_eq_true]
  rw [dictAppend_pos v hany, List.map_append]
  have h1 : d.map (fun e => if e.1 = k then (e.1, e.2 ++ [v]) else e) = d := by
    conv_rhs => rw [← List.map_id d]
    apply List.map_congr_left
    intro e he
    have hne : e.1 ≠ k := fun h => hk (h ▸ List.mem_map_of_mem Prod.fst he)
    simp [hne]
  rw [h1]
  simp

/-- Appending a whole list of values under one key. -/
def dictAppendList (d : LinesDict) (k : String) (ls : List String) : LinesDict :=
  ls.foldl (fun d v => dictAppend d k v) d

theorem dictAppendList_snoc {d : LinesDict} {k : String} (hk : k ∉ dictKeys d) :
    ∀ (ls acc : List String),
      dictAppendList (d ++ [(k, acc)]) k ls = d ++ [(k, acc ++ ls)] := by
  intro ls
  induction ls with
  | nil => intro acc; simp [dictAppendList]
  | cons v vs ih =>
    intro acc
    show dictAppendList (dictAppend (d ++ [(k, acc)]) k v) k vs = _
    rw [dictAppend_snoc hk acc v, ih (acc ++ [v])]
    simp

theorem dictAppendList_notMem {d : LinesDict} {k : String} (hk : k ∉ dictKeys d)
    {ls : List String} (hls : ls ≠ []) :
    dictAppendList d k ls = d ++ [(k, ls)] := by
  cases ls with
  | nil => exact absurd rfl hls
  | cons v vs =>
    show dictAppendList (dictAppend d k v) k vs = _
    have hany : ¬ (d.any (fun e => e.1 = k)) = true := by
      rw [any_key_eq_mem]; exact hk
    rw [dictAppend_neg v hany, dictAppendList_snoc hk vs [v]]
    rfl

theorem foldl_append_if {α β : Type} (p : α → Bool) (f : α → β) :
    ∀ (ms : List α) (acc : List β),
      ms.foldl (fun acc m => if p m then acc ++ [f m] else acc) acc
        = acc ++ ms.filterMap (fun m => if p m then some (f m) else none) := by
  intro ms
  induction ms with
  | nil => intro acc; simp
  | cons m ms ih =>
    intro acc
    simp only [List.foldl_cons, List.filterMap_cons]
    by_cases hp : p m = true
    · rw [if_pos hp, if_pos hp, ih]
      simp
    · rw [if_neg hp, if_neg hp, ih]

theorem scanFile_eq (username content : String) :
    scanFile username content
      = (matchesOf content).filterMap
          (fun m =>
            if strContains m.1.data username.data then some (formatLine m.1 m.2)
            else none) := by
  rw [scanFile, foldl_append_if]
  rfl

theorem processMatches_eq (username fileName : String) (ms : List (String × String)) :
    ∀ d, processMatches username fileName ms d
      = dictAppendList d fileName
          (ms.filterMap
            (fun m =>
              if strContains m.1.data username.data then some (formatLine m.1 m.2)
              else none)) := by
  induction ms with
  | nil => intro d; rfl
  | cons m ms ih =>
    intro d
    simp only [processMatches, List.foldl_cons, List.filterMap_cons]
    by_cases hp : strContains m.1.data username.data = true
    · rw [if_pos hp, if_pos hp]
      exact ih (dictAppend d fileName (formatLine m.1 m.2))
    · rw [if_neg hp, if_neg hp]
      exact ih d

theorem processMatches_scanFile (username : String) (f : String × String) (d : LinesDict) :
    processMatches username f.1 (matchesOf f.2) d
      = dictAppendList d f.1 (scanFile username f.2) := by
  rw [processMatches_eq, scanFile_eq]

/-- The body of the scan, with an arbitrary starting dictionary. -/
def relatedAux (username : String) (d : LinesDict) (files : List (String × String)) :
    LinesDict :=
  files.foldl (fun d f => processMatches username f.1 (matchesOf f.2) d) d

theorem relatedLines_eq_aux (username : String) (files : List (String × String)) :
    relatedLines username files = relatedAux username [] files := rfl

theorem relatedAux_char (username : String) :
    ∀ (files : List (String × String)) (d : LinesDict),
      (files.map Prod.fst).Nodup →
      (∀ n ∈ dictKeys d, n ∉ files.map Prod.fst) →
      relatedAux username d files
        = d ++ files.filterMap
            (fun f =>
              if scanFile username f.2 = [] then none
              else some (f.1, scanFile username f.2)) := by
  intro files
  induction files with
  | nil => intro d _ _; simp [relatedAux]
  | cons f fs ih =>
    intro d hnd hdisj
    have hstep : relatedAux username d (f :: fs)
        = relatedAux username (dictAppendList d f.1 (scanFile username f.2)) fs := by
      simp only [relatedAux, List.foldl_cons, processMatches_scanFile]
    rw [hstep]
    simp only [List.map_cons, List.nodup_cons] at hnd
    by_cases hemp : scanFile username f.2 = []
    · rw [show dictAppendList d f.1 (scanFile username f.2) = d by rw [hemp]; rfl]
      rw [ih d hnd.2 (fun n hn => fun hmem => hdisj n hn (List.mem_cons_of_mem _ hmem))]
      simp only [List.filterMap_cons, if_pos hemp]
    · have hk : f.1 ∉ dictKeys d := fun hmem => hdisj f.1 hmem (List.mem_cons_self _ _)
      rw [dictAppendList_notMem hk hemp]
      have hdisj2 : ∀ n ∈ dictKeys (d ++ [(f.1, scanFile username f.2)]),
          n ∉ fs.map Prod.fst := by
        intro n hn
        simp only [dictKeys, List.map_append, List.mem_append, List.map_cons,
          List.mem_singleton, List.map_nil] at hn
        rcases hn with hn | hn
        · exact fun hmem => hdisj n hn (List.mem_cons_of_mem _ hmem)
        · rw [hn]
          exact hnd.1
      rw [ih _ hnd.2 hdisj2]
      simp only [List.filterMap_cons, if_neg hemp]
      simp

/-- The result dictionary, characterized: under distinct file names (as a
directory listing yields), `related_lines_local` holds exactly the files
with at least one surviving match, in listing order, each with its formatted
lines in match order. -/
theorem relatedLines_char (username : String) (files : List (String × String))
    (hnd : (files.map Prod.fst).Nodup) :
    relatedLines username files
      = files.filterMap
          (fun f =>
            if scanFile username f.2 = [] then none
            else some (f.1, scanFile username f.2)) := by
  rw [relatedLines_eq_aux, relatedAux_char username files [] hnd (by simp [dictKeys])]
  simp

/-! ### Rendering lemmas -/

theorem pyJoin_foldl_acc (sep : String) :
    ∀ (ys : List String) (a b : String),
      ys.foldl (fun acc z => acc ++ sep ++ z) (a ++ b)
        = a ++ ys.foldl (fun acc z => acc ++ sep ++ z) b := by
  intro ys
  induction ys with
  | nil => intro a b; rfl
  | cons z zs ih =>
    intro a b
    simp only [List.foldl_cons]
    have he : (a ++ b) ++ sep ++ z = a ++ (b ++ sep ++ z) := by
      simp [String.append_assoc]
    rw [he, ih]

theorem pyJoin_cons (sep x : String) {xs : List String} (h : xs ≠ []) :
    pyJoin sep (x :: xs) = x ++ sep ++ pyJoin sep xs := by
  cases xs with
  | nil => exact absurd rfl h
  | cons y ys =>
    show (y :: ys).foldl (fun acc z => acc ++ sep ++ z) x = _
    simp only [List.foldl_cons]
    have : x ++ sep ++ y = (x ++ sep) ++ y := rfl
    rw [this, pyJoin_foldl_acc sep ys (x ++ sep) y]
    rfl

theorem pyJoin_append (sep : String) :
    ∀ {xs ys : List String}, xs ≠ [] → ys ≠ [] →
      pyJoin sep (xs ++ ys) = pyJoin sep xs ++ sep ++ pyJoin sep ys := by
  intro xs
  induction xs with
  | nil => intro ys h _; exact absurd rfl h
  | cons x xs ih =>
    intro ys _ hys
    cases hxs : xs with
    | nil =>
      simp only [List.cons_append, List.nil_append]
      rw [pyJoin_cons sep x hys]
      rfl
    | cons a as =>
      rw [← hxs]
      have hxs0 : xs ≠ [] := by rw [hxs]; simp
      have happ : xs ++ ys ≠ [] := by
        intro hc
        exact hxs0 (List.append_eq_nil.mp hc).1
      simp only [List.cons_append]
      rw [pyJoin_cons sep x happ, pyJoin_cons sep x hxs0, ih hxs0 hys]
      simp [String.append_assoc]

/-- The string one block contributes to the joined report. -/
def blockString (name : String) (lines : List String) : String :=
  pyJoin "\n" (renderEntry name lines)

theorem outputList_acc :
    ∀ (d : LinesDict) (acc : List String),
      d.foldl (fun out e => out ++ renderEntry e.1 e.2) acc
        = acc ++ (d.map (fun e => renderEntry e.1 e.2)).flatten := by
  intro d
  induction d with
  | nil => intro acc; simp
  | cons e d ih =>
    intro acc
    simp only [List.foldl_cons, List.map_cons, List.flatten_cons]
    rw [ih]
    simp

theorem outputList_eq (d : LinesDict) :
    outputList d = (d.map (fun e => renderEntry e.1 e.2)).flatten := by
  rw [outputList, outputList_acc]
  simp

theorem renderEntry_ne_nil (n : String) (ls : List String) : renderEntry n ls ≠ [] := by
  simp [renderEntry]

theorem renderReport_blocks (d : LinesDict) :
    renderReport d = pyJoin "\n" (d.map (fun e => blockString e.1 e.2)) := by
  rw [renderReport, outputList_eq]
  induction d with
  | nil => rfl
  | cons e d ih =>
    cases hd : d with
    | nil =>
      simp only [List.map_cons, List.map_nil, List.flatten_cons, List.flatten_nil,
        List.append_nil]
      rfl
    | cons e2 d2 =>
      rw [← hd]
      have hne1 : renderEntry e.1 e.2 ≠ [] := renderEntry_ne_nil e.1 e.2
      have hne2 : (d.map (fun e => renderEntry e.1 e.2)).flatten ≠ [] := by
        rw [hd]
        simp only [List.map_cons, List.flatten_cons]
        intro hc
        exact renderEntry_ne_nil e2.1 e2.2 (List.append_eq_nil.mp hc).1
      have hne3 : d.map (fun e => blockString e.1 e.2) ≠ [] := by
        rw [hd]; simp
      simp only [List.map_cons, List.flatten_cons]
      rw [pyJoin_append "\n" hne1 hne2, pyJoin_cons "\n" _ hne3, ih]
      rfl

theorem sortedUnique_ne_nil {ls : List String} (h : ls ≠ []) : sortedUnique ls ≠ [] := by
  intro hc
  apply h
  have hperm := List.perm_insertionSort (α := String) (· ≤ ·) ls.dedup
  rw [sortedUnique] at hc
  rw [hc] at hperm
  have hd : ls.dedup = [] := hperm.symm.eq_nil
  cases hls : ls with
  | nil => rfl
  | cons a as =>
    exfalso
    have : a ∈ ls.dedup := List.mem_dedup.mpr (by rw [hls]; exact List.mem_cons_self a as)
    rw [hd] at this
    exact List.not_mem_nil a this

theorem blockString_unfold (n : String) {ls : List String} (h : ls ≠ []) :
    blockString n ls
      = ("In file " ++ n ++ ":") ++ "\n" ++ pyJoin "\n" (sortedUnique ls) ++ "\n" ++ "\n" := by
  have hsu := sortedUnique_ne_nil h
  rw [blockString, renderEntry]
  have h1 : sortedUnique ls ++ ["\n"] ≠ [] := by
    intro hc
    exact hsu (List.append_eq_nil.mp hc).1
  rw [pyJoin_cons "\n" _ h1, pyJoin_append "\n" hsu (by simp)]
  have h2 : pyJoin "\n" (["\n"] : List String) = "\n" := rfl
  rw [h2]
  simp [String.append_assoc]

/-- Every entry of the accumulated dictionary holds at least one line. -/
theorem relatedAux_entries_ne_nil (username : String) :
    ∀ (files : List (String × String)) (d : LinesDict),
      (∀ e ∈ d, e.2 ≠ []) →
      ∀ e ∈ relatedAux username d files, e.2 ≠ [] := by
  intro files
  induction files with
  | nil => intro d hd; exact hd
  | cons f fs ih =>
    intro d hd
    have hstep : relatedAux username d (f :: fs)
        = relatedAux username (dictAppendList d f.1 (scanFile username f.2)) fs := by
      simp only [relatedAux, List.foldl_cons, processMatches_scanFile]
    rw [hstep]
    apply ih
    have hstepAll : ∀ (vs : List String) (d0 : LinesDict), (∀ e ∈ d0, e.2 ≠ []) →
        ∀ e ∈ dictAppendList d0 f.1 vs, e.2 ≠ [] := by
      intro vs
      induction vs with
      | nil => intro d0 hd0; exact hd0
      | cons v vs ihv =>
        intro d0 hd0
        show ∀ e ∈ dictAppendList (dictAppend d0 f.1 v) f.1 vs, e.2 ≠ []
        apply ihv
        intro e he
        rw [dictAppend] at he
        split at he
        · rcases List.mem_map.mp he with ⟨e0, he0, heq⟩
          by_cases hk : e0.1 = f.1
          · rw [if_pos hk] at heq
            rw [← heq]
            simp
          · rw [if_neg hk] at heq
            rw [← heq]
            exact hd0 e0 he0
        · rcases List.mem_append.mp he with h1 | h1
          · exact hd0 e h1
          · rcases List.mem_singleton.mp h1 with rfl
            simp
    exact hstepAll (scanFile username f.2) d hd

theorem relatedLines_entries_ne_nil (username : String) (files : List (String × String)) :
    ∀ e ∈ relatedLines username files, e.2 ≠ [] := by
  rw [relatedLines_eq_aux]
  exact relatedAux_entries_ne_nil username files [] (by simp)

/-! ### Further bridges -/

theorem scanFile_nilUser (content : String) :
    scanFile "" content = (matchesOf content).map (fun m => formatLine m.1 m.2) := by
  rw [scanFile_eq]
  have h : ∀ m ∈ matchesOf content,
      (if strContains m.1.data "".data then some (formatLine m.1 m.2) else none)
        = some (formatLine m.1 m.2) := by
    intro m _
    rw [if_pos]
    exact strContains_nil m.1.data
  rw [List.filterMap_congr h]
  show List.filterMap (some ∘ fun m => formatLine m.1 m.2) (matchesOf content) = _
  rw [List.filterMap_eq_map]

theorem filterMap_ite_eq_filter_map {α β : Type} (q : α → Prop) [DecidablePred q]
    (g : α → β) (l : List α) :
    l.filterMap (fun a => if q a then none else some (g a))
      = (l.filter (fun a => decide ¬ q a)).map g := by
  induction l with
  | nil => rfl
  | cons a l ih =>
    simp only [List.filterMap_cons]
    by_cases hq : q a
    · rw [if_pos hq, List.filter_cons_of_neg (by simp [hq])]
      exact ih
    · rw [if_neg hq, List.filter_cons_of_pos (by simp [hq]), List.map_cons, ih]

theorem relatedAux_id_of_empty (username : String) :
    ∀ (files : List (String × String)), (∀ f ∈ files, scanFile username f.2 = []) →
      ∀ d, relatedAux username d files = d := by
  intro files
  induction files with
  | nil => intro _ d; rfl
  | cons f fs ih =>
    intro hall d
    have hstep : relatedAux username d (f :: fs)
        = relatedAux username (dictAppendList d f.1 (scanFile username f.2)) fs := by
      simp only [relatedAux, List.foldl_cons, processMatches_scanFile]
    rw [hstep, hall f (List.mem_cons_self _ _)]
    exact ih (fun g hg => hall g (List.mem_cons_of_mem _ hg)) d

/-! ### Claims C1, C2, C4 (amended part), C5, C6 -/

/-- **C1**: every emitted block's body holds each distinct formatted line of
its entry exactly once (duplicates collapsed by string equality), in
ascending lexicographic (codepoint-wise) order. -/
theorem claim_C1 (username : String) (files : List (String × String))
    (name : String) (ls : List String)
    (_hmem : (name, ls) ∈ relatedLines username files) :
    renderEntry name ls = ("In file " ++ name ++ ":") :: (sortedUnique ls ++ ["\n"]) ∧
    (sortedUnique ls).Nodup ∧
    List.Sorted (· ≤ ·) (sortedUnique ls) ∧
    (∀ l, l ∈ sortedUnique ls ↔ l ∈ ls) ∧
    (∀ l ∈ sortedUnique ls, (sortedUnique ls).count l = 1) := by
  have hperm := List.perm_insertionSort (α := String) (· ≤ ·) ls.dedup
  have hnodup : (sortedUnique ls).Nodup :=
    (hperm.nodup_iff).mpr (List.nodup_dedup ls)
  refine ⟨rfl, hnodup, List.sorted_insertionSort _ _, ?_, ?_⟩
  · intro l
    rw [sortedUnique, hperm.mem_iff, List.mem_dedup]
  · intro l hl
    exact List.count_eq_one_of_mem hnodup hl

theorem claim_C1_witness :
    (("f", ["a - b"]) ∈ relatedLines "" [("f", "\"author\": \"a\", \"text\": \"b\"")]) ∧
    (renderEntry "f" ["a - b"]
        = ("In file " ++ "f" ++ ":") :: (sortedUnique ["a - b"] ++ ["\n"]) ∧
      (sortedUnique ["a - b"]).Nodup ∧
      List.Sorted (· ≤ ·) (sortedUnique ["a - b"]) ∧
      (∀ l, l ∈ sortedUnique ["a - b"] ↔ l ∈ ["a - b"]) ∧
      (∀ l ∈ sortedUnique ["a - b"], (sortedUnique ["a - b"]).count l = 1)) :=
  ⟨by decide,
    claim_C1 "" [("f", "\"author\": \"a\", \"text\": \"b\"")] "f" ["a - b"] (by decide)⟩

/-- **C2**: a match's formatted line joins its entry's list iff the query is
a (case-sensitive) substring of the matched author; the empty query keeps
every match, so with the empty query every match of every listed file shows
up in the result dictionary. -/
theorem claim_C2 (username content : String) (files : List (String × String)) :
    (scanFile username content
      = (matchesOf content).filterMap
          (fun m =>
            if username.data <:+: m.1.data then some (formatLine m.1 m.2) else none)) ∧
    (scanFile "" content = (matchesOf content).map (fun m => formatLine m.1 m.2)) ∧
    ((files.map Prod.fst).Nodup →
      ∀ f ∈ files, ∀ m ∈ matchesOf f.2,
        ∃ ls, (f.1, ls) ∈ relatedLines "" files ∧ formatLine m.1 m.2 ∈ ls) := by
  refine ⟨?_, scanFile_nilUser content, ?_⟩
  · rw [scanFile_eq]
    apply List.filterMap_congr
    intro m _
    apply if_congr strContains_iff rfl rfl
  · intro hnd f hf m hm
    refine ⟨scanFile "" f.2, ?_, ?_⟩
    · rw [relatedLines_char "" files hnd]
      apply List.mem_filterMap.mpr
      refine ⟨f, hf, ?_⟩
      rw [if_neg]
      rw [scanFile_nilUser]
      intro hc
      rw [List.map_eq_nil_iff] at hc
      rw [hc] at hm
      exact List.not_mem_nil m hm
    · rw [scanFile_nilUser]
      exact List.mem_map_of_mem _ hm

theorem claim_C2_witness :
    ([("f", "\"author\": \"a\", \"text\": \"b\"")].map
        (Prod.fst (α := String) (β := String))).Nodup ∧
    (∃ ls, ("f", ls) ∈ relatedLines "" [("f", "\"author\": \"a\", \"text\": \"b\"")] ∧
      formatLine "a" "b" ∈ ls) :=
  ⟨by decide,
    (claim_C2 "" "\"author\": \"a\", \"text\": \"b\""
        [("f", "\"author\": \"a\", \"text\": \"b\"")]).2.2
      (by decide) ("f", "\"author\": \"a\", \"text\": \"b\"") (by decide)
      ("a", "b") (by decide)⟩

/-- **C5**: a block is exactly one header line naming the file, the sorted
unique lines, and a single trailing blank separator line (the `"\n"`
element), and the report is the newline-join of the blocks. -/
theorem claim_C5 (username : String) (files : List (String × String)) :
    searchFiles username files
      = pyJoin "\n" ((relatedLines username files).map (fun e => blockString e.1 e.2)) ∧
    (∀ e ∈ relatedLines username files, e.2 ≠ []) ∧
    (∀ name ls, ls ≠ [] →
      blockString name ls
        = ("In file " ++ name ++ ":") ++ "\n"
            ++ pyJoin "\n" (sortedUnique ls) ++ "\n" ++ "\n") := by
  refine ⟨renderReport_blocks _, relatedLines_entries_ne_nil username files, ?_⟩
  intro name ls hls
  exact blockString_unfold name hls

theorem claim_C5_witness :
    (["a - b"] ≠ ([] : List String)) ∧
    blockString "f" ["a - b"]
      = ("In file " ++ "f" ++ ":") ++ "\n"
          ++ pyJoin "\n" (sortedUnique ["a - b"]) ++ "\n" ++ "\n" :=
  ⟨by decide, (claim_C5 "" []).2.2 "f" ["a - b"] (by decide)⟩

/-- **C6**: with no surviving match anywhere (zero entries included) the
report is the empty string, and an entry without matches owns no block — its
name is not a key of the result dictionary. -/
theorem claim_C6 (username : String) (files : List (String × String)) :
    ((∀ f ∈ files, scanFile username f.2 = []) → searchFiles username files = "") ∧
    (searchFiles username [] = "") ∧
    ((files.map Prod.fst).Nodup →
      ∀ f ∈ files, scanFile username f.2 = [] →
        f.1 ∉ dictKeys (relatedLines username files)) := by
  refine ⟨?_, rfl, ?_⟩
  · intro hall
    rw [searchFiles, relatedLines_eq_aux, relatedAux_id_of_empty username files hall []]
    rfl
  · intro hnd f hf hempty hkey
    rw [relatedLines_char username files hnd] at hkey
    rcases List.mem_map.mp hkey with ⟨e, he, hfst⟩
    rcases List.mem_filterMap.mp he with ⟨g, hg, hge⟩
    by_cases hgs : scanFile username g.2 = []
    · rw [if_pos hgs] at hge
      exact Option.noConfusion hge
    · rw [if_neg hgs] at hge
      have hpair : (g.1, scanFile username g.2) = e := Option.some.inj hge
      have hg1 : g.1 = f.1 := by rw [← hfst, ← hpair]
      have heq := List.inj_on_of_nodup_map hnd hg hf hg1
      rw [heq] at hgs
      exact hgs hempty

theorem claim_C6_witness :
    (∀ f ∈ [("f", "no match here")], scanFile "q" f.2 = []) ∧
    searchFiles "q" [("f", "no match here")] = "" ∧
    (([("f", "no match here")].map (Prod.fst (α := String) (β := String))).Nodup) ∧
    ("f" ∉ dictKeys (relatedLines "q" [("f", "no match here")])) :=
  ⟨by decide,
    (claim_C6 "q" [("f", "no match here")]).1 (by decide),
    by decide,
    (claim_C6 "q" [("f", "no match here")]).2.2 (by decide)
      ("f", "no match here") (by decide) (by decide)⟩

/-- **C4 (amended)**: blocks follow the scan order of the listed files —
first-insertion order of the result dictionary — restricted to files with a
surviving match; they are not re-sorted by name. -/
theorem claim_C4_amended (username : String) (files : List (String × String))
    (hnd : (files.map Prod.fst).Nodup) :
    dictKeys (relatedLines username files)
      = (files.filter (fun f => decide ¬ scanFile username f.2 = [])).map Prod.fst ∧
    searchFiles username files
      = pyJoin "\n"
          ((files.filter (fun f => decide ¬ scanFile username f.2 = [])).map
            (fun f => blockString f.1 (scanFile username f.2))) := by
  have hchar := relatedLines_char username files hnd
  constructor
  · rw [dictKeys, hchar, filterMap_ite_eq_filter_map]
    rw [List.map_map]
    rfl
  · rw [searchFiles, renderReport_blocks, hchar, filterMap_ite_eq_filter_map]
    rw [List.map_map]
    rfl

theorem claim_C4_amended_witness :
    (([("b", "\"author\": \"x\", \"text\": \"1\""), ("a", "\"author\": \"x\", \"text\": \"2\"")].map
        (Prod.fst (α := String) (β := String))).Nodup) ∧
    dictKeys (relatedLines ""
        [("b", "\"author\": \"x\", \"text\": \"1\""), ("a", "\"author\": \"x\", \"text\": \"2\"")])
      = ([("b", "\"author\": \"x\", \"text\": \"1\""), ("a", "\"author\": \"x\", \"text\": \"2\"")].filter
          (fun f => decide ¬ scanFile "" f.2 = [])).map Prod.fst :=
  ⟨by decide,
    (claim_C4_amended ""
        [("b", "\"author\": \"x\", \"text\": \"1\""), ("a", "\"author\": \"x\", \"text\": \"2\"")]
        (by decide)).1⟩

/-! ### Filesystem model for the effectful shell (lines 19–29)

The effectful part of `extract_and_search` is: create a temporary directory
(`tempfile.TemporaryDirectory`, removed on every exit), open the archive
(`zipfile.ZipFile`, raising on an invalid archive), extract all entries into
the directory, list the directory (`os.listdir`, whose order the Python
documentation leaves arbitrary), and open each listed name as a regular
file.  The filesystem is an insertion-ordered association of paths to
nodes. -/

/-- A filesystem node: a regular file with decoded text content, or a
directory. -/
inductive Node
  | file (content : String)
  | dir
deriving DecidableEq

/-- A filesystem: paths to nodes, in creation order. -/
abbrev FS := List (String × Node)

/-- Errors surfaced by the modelled Python runtime: `ArchiveUnreadable` is
the spec's name for `zipfile.BadZipFile`, `ArchiveIOError` for extraction
I/O failures, and `isADirectoryError` for `open()` on a directory. -/
inductive PyError
  | archiveUnreadable
  | archiveIOError
  | isADirectoryError
  | fileNotFound
deriving DecidableEq

/-- One archive entry: its stored name and the node extraction creates
(directory entries in a ZIP extract to directories). -/
structure Entry where
  name : String
  node : Node
deriving DecidableEq

def joinPath (tmp name : String) : String := tmp ++ "/" ++ name

def lookupFS (fs : FS) (p : String) : Option Node :=
  (fs.find? (fun e => e.1 = p)).map Prod.snd

/-- Write a node at a path: overwrite in place, or append a fresh entry. -/
def setNode (fs : FS) (p : String) (n : Node) : FS :=
  if fs.any (fun e => e.1 = p) then fs.map (fun e => if e.1 = p then (p, n) else e)
  else fs ++ [(p, n)]

/-- Line 21, `zip_ref.extractall(tmpdirname)`: create each entry's node
under the scratch directory, in archive order. -/
def extractAll (tmp : String) (entries : List Entry) (fs : FS) : FS :=
  entries.foldl (fun fs e => setNode fs (joinPath tmp e.name) e.node) fs

/-- Is `p` the scratch directory itself or a path underneath it? -/
def insideTmp (tmp p : String) : Bool :=
  decide (p = tmp) || (tmp ++ "/").data.isPrefixOf p.data

/-- Remove the scratch directory and everything under it. -/
def removeTmpDir (tmp : String) (fs : FS) : FS :=
  fs.filter (fun e => !insideTmp tmp e.1)

/-- Modelled from the spec: `with tempfile.TemporaryDirectory() as tmpdirname`
(line 19) — the scratch directory is created, the body runs, and the
directory and all its contents are removed on every exit path, whether the
body returns a value or raises. -/
def withTempDir {α : Type} (tmp : String) (body : FS → Except PyError α × FS)
    (fs : FS) : Except PyError α × FS :=
  ((body (setNode fs tmp Node.dir)).1,
    removeTmpDir tmp (body (setNode fs tmp Node.dir)).2)

/-- Line 28, `open(file_path, 'r', errors='replace')` followed by `.read()`:
regular files yield their (leniently decoded) text; opening a directory
raises `IsADirectoryError`. -/
def openNode : Node → Except PyError String
  | Node.file c => Except.ok c
  | Node.dir => Except.error PyError.isADirectoryError

/-- Lines 24–36: iterate over the listed names, open each as a regular file
and accumulate its matches; any raise aborts the loop and propagates. -/
def scanGo (username tmp : String) (fs : FS) :
    List String → LinesDict → Except PyError LinesDict
  | [], d => Except.ok d
  | n :: ns, d =>
    match lookupFS fs (joinPath tmp n) with
    | none => Except.error PyError.fileNotFound
    | some node =>
      match openNode node with
      | Except.error e => Except.error e
      | Except.ok content =>
        scanGo username tmp fs ns (processMatches username n (matchesOf content) d)

/-- The whole of `extract_and_search`, over the filesystem model.
`arc` is the outcome of `zipfile.ZipFile(zip_path, 'r')`: `none` when the
path is not a valid ZIP archive (`BadZipFile`, the spec's
`ArchiveUnreadable`), otherwise the archive's entries in stored order.
`listing` is the name sequence `os.listdir` yields for the scratch
directory — a permutation of the extracted top-level names whose order the
Python documentation leaves arbitrary. -/
def extract_and_search (arc : Option (List Entry)) (listing : List String)
    (tmp username : String) (fs : FS) : Except PyError String × FS :=
  let p := withTempDir tmp
    (fun fs1 =>
      match arc with
      | none => (Except.error PyError.archiveUnreadable, fs1)
      | some entries =>
        (scanGo username tmp (extractAll tmp entries fs1) listing [],
          extractAll tmp entries fs1)) fs
  match p.1 with
  | Except.error e => (Except.error e, p.2)
  | Except.ok d => (Except.ok (renderReport d), p.2)

/-- No existing path is the scratch directory or lies underneath it. -/
def freshTmp (tmp : String) (fs : FS) : Prop :=
  ∀ e ∈ fs, insideTmp tmp e.1 = false

theorem string_eq_of_data {a b : String} (h : a.data = b.data) : a = b := by
  cases a
  cases b
  cases h
  rfl

theorem joinPath_inj {tmp a b : String} (h : joinPath tmp a = joinPath tmp b) :
    a = b := by
  have hd : (tmp ++ "/").data ++ a.data = (tmp ++ "/").data ++ b.data := by
    have := congrArg String.data h
    simpa [joinPath, String.data_append] using this
  exact string_eq_of_data (List.append_cancel_left hd)

theorem insideTmp_joinPath (tmp n : String) : insideTmp tmp (joinPath tmp n) = true := by
  rw [insideTmp]
  apply Bool.or_eq_true_iff.mpr
  right
  rw [List.isPrefixOf_iff_prefix]
  rw [joinPath, String.data_append]
  exact List.prefix_append _ _

theorem insideTmp_self (tmp : String) : insideTmp tmp tmp = true := by
  rw [insideTmp]
  apply Bool.or_eq_true_iff.mpr
  left
  simp

theorem filter_map_overwrite {tmp p : String} (hp : insideTmp tmp p = true) (n : Node) :
    ∀ fs : FS,
      List.filter (fun e => !insideTmp tmp e.1)
          (fs.map (fun e => if e.1 = p then (p, n) else e))
        = List.filter (fun e => !insideTmp tmp e.1) fs := by
  intro fs
  induction fs with
  | nil => rfl
  | cons e fs ih =>
    simp only [List.map_cons]
    by_cases he : e.1 = p
    · rw [if_pos he, List.filter_cons_of_neg (by simp [hp]),
        List.filter_cons_of_neg (by simp [he, hp])]
      exact ih
    · rw [if_neg he]
      by_cases hk : insideTmp tmp e.1 = true
      · rw [List.filter_cons_of_neg (by simp [hk]), List.filter_cons_of_neg (by simp [hk])]
        exact ih
      · have hk2 : insideTmp tmp e.1 = false := by
          cases h : insideTmp tmp e.1
          · rfl
          · exact absurd h hk
        rw [List.filter_cons_of_pos (by simp [hk2]), List.filter_cons_of_pos (by simp [hk2])]
        rw [ih]

theorem removeTmpDir_setNode {tmp p : String} (hp : insideTmp tmp p = true)
    (n : Node) (fs : FS) :
    removeTmpDir tmp (setNode fs p n) = removeTmpDir tmp fs := by
  rw [setNode]
  split
  · exact filter_map_overwrite hp n fs
  · rw [removeTmpDir, removeTmpDir, List.filter_append]
    have h0 : List.filter (fun e => !insideTmp tmp e.1) [(p, n)] = [] := by
      simp [hp]
    rw [h0, List.append_nil]

theorem removeTmpDir_extractAll (tmp : String) :
    ∀ (entries : List Entry) (fs : FS),
      removeTmpDir tmp (extractAll tmp entries fs) = removeTmpDir tmp fs := by
  intro entries
  induction entries with
  | nil => intro fs; rfl
  | cons e es ih =>
    intro fs
    show removeTmpDir tmp (extractAll tmp es (setNode fs (joinPath tmp e.name) e.node))
        = removeTmpDir tmp fs
    rw [ih, removeTmpDir_setNode (insideTmp_joinPath tmp e.name)]

theorem removeTmpDir_fresh {tmp : String} {fs : FS} (h : freshTmp tmp fs) :
    removeTmpDir tmp fs = fs := by
  rw [removeTmpDir]
  apply List.filter_eq_self.mpr
  intro e he
  rw [h e he]
  rfl

/-- **C7**: whatever the archive, query, listing and outcome, the returned
filesystem is the caller's: the scratch directory and all extracted files
are gone, and nothing outside it was created, modified or deleted. -/
theorem claim_C7 (arc : Option (List Entry)) (listing : List String)
    (tmp username : String) (fs : FS) (hfresh : freshTmp tmp fs) :
    (extract_and_search arc listing tmp username fs).2 = fs := by
  have hbase : removeTmpDir tmp (setNode fs tmp Node.dir) = fs := by
    rw [removeTmpDir_setNode (insideTmp_self tmp), removeTmpDir_fresh hfresh]
  have h2 : (withTempDir tmp
      (fun fs1 =>
        match arc with
        | none => (Except.error PyError.archiveUnreadable, fs1)
        | some entries =>
          (scanGo username tmp (extractAll tmp entries fs1) listing [],
            extractAll tmp entries fs1)) fs).2 = fs := by
    rw [withTempDir]
    cases arc with
    | none => exact hbase
    | some entries =>
      show removeTmpDir tmp (extractAll tmp entries (setNode fs tmp Node.dir)) = fs
      rw [removeTmpDir_extractAll, hbase]
  rw [extract_and_search]
  cases hp : (withTempDir tmp
      (fun fs1 =>
        match arc with
        | none => (Except.error PyError.archiveUnreadable, fs1)
        | some entries =>
          (scanGo username tmp (extractAll tmp entries fs1) listing [],
            extractAll tmp entries fs1)) fs).1 with
  | error e => simp only [hp]; exact h2
  | ok d => simp only [hp]; exact h2

theorem claim_C7_witness :
    freshTmp "t" [("keep", Node.file "k")] ∧
    (extract_and_search (some [⟨"a", Node.file "x"⟩]) ["a"] "t" ""
        [("keep", Node.file "k")]).2 = [("keep", Node.file "k")] :=
  ⟨by unfold freshTmp; decide,
    claim_C7 (some [⟨"a", Node.file "x"⟩]) ["a"] "t" "" [("keep", Node.file "k")]
      (by unfold freshTmp; decide)⟩

/-- **C8**: an invalid archive makes the call fail with `ArchiveUnreadable`
(the spec's name for `zipfile.BadZipFile`), and the error propagates to the
caller unmodified — it is not caught, retried, or swallowed. -/
theorem claim_C8 (listing : List String) (tmp username : String) (fs : FS) :
    (extract_and_search none listing tmp username fs).1
      = Except.error PyError.archiveUnreadable := rfl

theorem lookupFS_map_self (p : String) (n : Node) :
    ∀ fs : FS, (fs.any fun e => decide (e.1 = p)) = true →
      lookupFS (fs.map (fun e => if e.1 = p then (p, n) else e)) p = some n := by
  intro fs
  induction fs with
  | nil => intro h; simp at h
  | cons e fs ih =>
    intro hany
    simp only [List.map_cons]
    by_cases he : e.1 = p
    · rw [if_pos he, lookupFS, List.find?_cons_of_pos _ (by simp)]
      rfl
    · rw [if_neg he, lookupFS, List.find?_cons_of_neg _ (by simp [he])]
      have hany2 : (fs.any fun e => decide (e.1 = p)) = true := by
        simp only [List.any_cons] at hany
        rcases Bool.or_eq_true_iff.mp hany with h1 | h1
        · exact absurd (of_decide_eq_true h1) he
        · exact h1
      exact ih hany2

theorem lookupFS_append_self (p : String) (n : Node) :
    ∀ fs : FS, ¬ ((fs.any fun e => decide (e.1 = p)) = true) →
      lookupFS (fs ++ [(p, n)]) p = some n := by
  intro fs
  induction fs with
  | nil =>
    intro _
    rw [List.nil_append, lookupFS, List.find?_cons_of_pos _ (by simp)]
    rfl
  | cons e fs ih =>
    intro hany
    have he : ¬ e.1 = p := fun hc => hany (by simp [List.any_cons, hc])
    have hany2 : ¬ (fs.any fun e => decide (e.1 = p)) = true := fun hc =>
      hany (by simp [List.any_cons, hc])
    rw [List.cons_append, lookupFS, List.find?_cons_of_neg _ (by simp [he])]
    exact ih hany2

theorem lookupFS_setNode_self (fs : FS) (p : String) (n : Node) :
    lookupFS (setNode fs p n) p = some n := by
  rw [setNode]
  split
  next hany => exact lookupFS_map_self p n fs hany
  next hany => exact lookupFS_append_self p n fs hany

theorem lookupFS_map_other {q p : String} (hqp : q ≠ p) (n : Node) :
    ∀ fs : FS,
      lookupFS (fs.map (fun e => if e.1 = p then (p, n) else e)) q = lookupFS fs q := by
  intro fs
  induction fs with
  | nil => rfl
  | cons e fs ih =>
    simp only [List.map_cons]
    by_cases he : e.1 = p
    · rw [if_pos he, lookupFS,
        List.find?_cons_of_neg _ (by simp [Ne.symm hqp]), lookupFS,
        List.find?_cons_of_neg _ (by simp [he, Ne.symm hqp])]
      exact ih
    · by_cases heq : e.1 = q
      · rw [if_neg he, lookupFS, List.find?_cons_of_pos _ (by simp [heq]),
          lookupFS, List.find?_cons_of_pos _ (by simp [heq])]
      · rw [if_neg he, lookupFS, List.find?_cons_of_neg _ (by simp [heq]),
          lookupFS, List.find?_cons_of_neg _ (by simp [heq])]
        exact ih

theorem lookupFS_append_other {q p : String} (hqp : q ≠ p) (n : Node) :
    ∀ fs : FS, lookupFS (fs ++ [(p, n)]) q = lookupFS fs q := by
  intro fs
  induction fs with
  | nil =>
    rw [List.nil_append, lookupFS, List.find?_cons_of_neg _ (by simp [Ne.symm hqp])]
    rfl
  | cons e fs ih =>
    by_cases heq : e.1 = q
    · rw [List.cons_append, lookupFS, List.find?_cons_of_pos _ (by simp [heq]),
        lookupFS, List.find?_cons_of_pos _ (by simp [heq])]
    · rw [List.cons_append, lookupFS, List.find?_cons_of_neg _ (by simp [heq]),
        lookupFS, List.find?_cons_of_neg _ (by simp [heq])]
      exact ih

theorem lookupFS_setNode_other {q p : String} (hqp : q ≠ p) (fs : FS) (n : Node) :
    lookupFS (setNode fs p n) q = lookupFS fs q := by
  rw [setNode]
  split
  · exact lookupFS_map_other hqp n fs
  · exact lookupFS_append_other hqp n fs

theorem lookup_extractAll_other (tmp : String) :
    ∀ (entries : List Entry) (fs : FS) (q : String),
      (∀ e ∈ entries, joinPath tmp e.name ≠ q) →
      lookupFS (extractAll tmp entries fs) q = lookupFS fs q := by
  intro entries
  induction entries with
  | nil => intro fs q _; rfl
  | cons e es ih =>
    intro fs q hq
    show lookupFS (extractAll tmp es (setNode fs (joinPath tmp e.name) e.node)) q
        = lookupFS fs q
    rw [ih _ q (fun e2 he2 => hq e2 (List.mem_cons_of_mem _ he2))]
    exact lookupFS_setNode_other
      (fun hc => hq e (List.mem_cons_self _ _) hc.symm) fs e.node

theorem lookup_extractAll_mem (tmp : String) :
    ∀ (entries : List Entry) (fs : FS),
      (entries.map Entry.name).Nodup →
      ∀ e0 ∈ entries,
        lookupFS (extractAll tmp entries fs) (joinPath tmp e0.name) = some e0.node := by
  intro entries
  induction entries with
  | nil => intro fs _ e0 he0; exact absurd he0 (List.not_mem_nil e0)
  | cons e es ih =>
    intro fs hnd e0 he0
    simp only [List.map_cons, List.nodup_cons] at hnd
    show lookupFS (extractAll tmp es (setNode fs (joinPath tmp e.name) e.node))
        (joinPath tmp e0.name) = some e0.node
    rcases List.mem_cons.mp he0 with rfl | hmem
    · rw [lookup_extractAll_other tmp es _ _ ?hne]
      · exact lookupFS_setNode_self fs (joinPath tmp e0.name) e0.node
      case hne =>
        intro e2 he2 hc
        have : e2.name = e0.name := joinPath_inj hc
        exact hnd.1 (this ▸ List.mem_map_of_mem Entry.name he2)
    · exact ih _ hnd.2 e0 hmem

theorem scanGo_dir_error (username tmp : String) (fs : FS) :
    ∀ (listing : List String) (d : LinesDict),
      (∀ n ∈ listing, ∃ node, lookupFS fs (joinPath tmp n) = some node) →
      (∃ n ∈ listing, lookupFS fs (joinPath tmp n) = some Node.dir) →
      scanGo username tmp fs listing d = Except.error PyError.isADirectoryError := by
  intro listing
  induction listing with
  | nil =>
    rintro d _ ⟨n, hn, _⟩
    exact absurd hn (List.not_mem_nil n)
  | cons n0 ns ih =>
    rintro d hall ⟨n, hn, hdir⟩
    obtain ⟨node, hnode⟩ := hall n0 (List.mem_cons_self _ _)
    rw [scanGo, hnode]
    cases node with
    | dir => rfl
    | file c =>
      show scanGo username tmp fs ns (processMatches username n0 (matchesOf c) d)
          = Except.error PyError.isADirectoryError
      rcases List.mem_cons.mp hn with rfl | hmem
      · rw [hnode] at hdir
        exact absurd (Option.some.inj hdir) (by simp)
      · exact ih _ (fun m hm => hall m (List.mem_cons_of_mem _ hm)) ⟨n, hmem, hdir⟩

theorem extract_and_search_some (entries : List Entry) (listing : List String)
    (tmp username : String) (fs : FS) :
    (extract_and_search (some entries) listing tmp username fs).1
      = match scanGo username tmp (extractAll tmp entries (setNode fs tmp Node.dir))
          listing [] with
        | Except.error e => Except.error e
        | Except.ok d => Except.ok (renderReport d) := by
  cases hs : scanGo username tmp (extractAll tmp entries (setNode fs tmp Node.dir))
      listing [] with
  | error e =>
    simp only [extract_and_search, withTempDir]
    rw [hs]
  | ok d =>
    simp only [extract_and_search, withTempDir]
    rw [hs]

/-- **C9**: a perfectly valid archive holding a directory entry makes the
scan step raise: the top-level listing includes the directory's name, the
code opens every listed name as a regular file, and the resulting
`IsADirectoryError` is neither `ArchiveUnreadable` nor `ArchiveIOError` and
is not caught. -/
theorem claim_C9 (entries : List Entry) (listing : List String)
    (tmp username : String) (fs : FS)
    (hnd : (entries.map Entry.name).Nodup)
    (hperm : listing.Perm (entries.map Entry.name))
    (hdir : ∃ e ∈ entries, e.node = Node.dir) :
    (extract_and_search (some entries) listing tmp username fs).1
        = Except.error PyError.isADirectoryError ∧
    PyError.isADirectoryError ≠ PyError.archiveUnreadable ∧
    PyError.isADirectoryError ≠ PyError.archiveIOError := by
  refine ⟨?_, by simp, by simp⟩
  have hscan : scanGo username tmp
      (extractAll tmp entries (setNode fs tmp Node.dir)) listing []
        = Except.error PyError.isADirectoryError := by
    apply scanGo_dir_error
    · intro n hn
      have hn2 : n ∈ entries.map Entry.name := hperm.mem_iff.mp hn
      rcases List.mem_map.mp hn2 with ⟨e, he, rfl⟩
      exact ⟨e.node, lookup_extractAll_mem tmp entries _ hnd e he⟩
    · rcases hdir with ⟨e, he, hnode⟩
      refine ⟨e.name, hperm.mem_iff.mpr (List.mem_map_of_mem Entry.name he), ?_⟩
      rw [lookup_extractAll_mem tmp entries _ hnd e he, hnode]
  rw [extract_and_search_some, hscan]

theorem claim_C9_witness :
    ([⟨"d", Node.dir⟩].map Entry.name).Nodup ∧
    List.Perm ["d"] ([⟨"d", Node.dir⟩].map Entry.name) ∧
    (∃ e ∈ [Entry.mk "d" Node.dir], e.node = Node.dir) ∧
    ((extract_and_search (some [⟨"d", Node.dir⟩]) ["d"] "t" "" []).1
        = Except.error PyError.isADirectoryError ∧
      PyError.isADirectoryError ≠ PyError.archiveUnreadable ∧
      PyError.isADirectoryError ≠ PyError.archiveIOError) :=
  ⟨by decide, by decide, by decide,
    claim_C9 [⟨"d", Node.dir⟩] ["d"] "t" "" [] (by decide) (by decide) (by decide)⟩

instance {e a : Type} [DecidableEq e] [DecidableEq a] : DecidableEq (Except e a) :=
  fun x y =>
    match x, y with
    | Except.error u, Except.error v =>
      if h : u = v then isTrue (by rw [h]) else isFalse (fun hc => h (Except.error.inj hc))
    | Except.error _, Except.ok _ => isFalse (fun hc => Except.noConfusion hc)
    | Except.ok _, Except.error _ => isFalse (fun hc => Except.noConfusion hc)
    | Except.ok u, Except.ok v =>
      if h : u = v then isTrue (by rw [h]) else isFalse (fun hc => h (Except.ok.inj hc))

/-- The decoded content an entry's extracted file holds (directories hold
none). -/
def entryContent : Entry → String
  | ⟨_, Node.file c⟩ => c
  | ⟨_, Node.dir⟩ => ""

/-- **C4, counterexample**: the claim says the report's blocks follow the
archive's own entry order.  The scan iterates `os.listdir`, whose order the
Python documentation leaves arbitrary; for the archive storing `"b"` before
`"a"` and the (perfectly valid) listing `["a", "b"]`, the report's blocks
come out in listing order, not archive order. -/
theorem claim_C4_counterexample :
    ¬ (∀ (entries : List Entry) (listing : List String) (tmp username : String)
        (fs : FS),
        freshTmp tmp fs →
        (entries.map Entry.name).Nodup →
        listing.Perm (entries.map Entry.name) →
        (∀ e ∈ entries, e.node ≠ Node.dir) →
        (extract_and_search (some entries) listing tmp username fs).1
          = Except.ok (searchFiles username
              (entries.map (fun e => (e.name, entryContent e))))) := by
  intro hclaim
  have h := hclaim
    [⟨"b", Node.file "\"author\": \"x\", \"text\": \"1\""⟩,
     ⟨"a", Node.file "\"author\": \"x\", \"text\": \"2\""⟩]
    ["a", "b"] "t" "" []
    (by unfold freshTmp; decide) (by decide) (by decide) (by decide)
  exact absurd h (by decide)

/-! ### Declarative characterization of the pattern matcher (C3, C10)

A successful match decomposes the input into the three literals and three
captured gaps, every `.*?`-consumed character is not a newline, and the text
capture stops at the first quote.  The matcher returns the lazy
(backtracking-priority) minimal such decomposition. -/

/-- A valid decomposition for the part of the pattern after `",`. -/
def MiddleSplit (s m t r : List Char) : Prop :=
  s = m ++ (textMarker ++ (t ++ ('"' :: r))) ∧ '\n' ∉ m ∧ '\n' ∉ t ∧ '"' ∉ t

/-- A valid decomposition for the part of the pattern after `"author": "`. -/
def AuthorSplit (s a m t r : List Char) : Prop :=
  s = a ++ (sepMarker ++ (m ++ (textMarker ++ (t ++ ('"' :: r))))) ∧
    '\n' ∉ a ∧ '\n' ∉ m ∧ '\n' ∉ t ∧ '"' ∉ t

/-- A valid decomposition of `s` as one whole-pattern match. -/
def FullSplit (s a m t r : List Char) : Prop :=
  s = authorMarker ++ (a ++ (sepMarker ++ (m ++ (textMarker ++ (t ++ ('"' :: r)))))) ∧
    '\n' ∉ a ∧ '\n' ∉ m ∧ '\n' ∉ t ∧ '"' ∉ t

theorem matchLit_sound : ∀ {l s r : List Char}, matchLit l s = some r → s = l ++ r := by
  intro l
  induction l with
  | nil =>
    intro s r h
    simp only [matchLit, Option.some.injEq] at h
    rw [h, List.nil_append]
  | cons a l ih =>
    intro s r h
    cases s with
    | nil => simp [matchLit] at h
    | cons c cs =>
      simp only [matchLit] at h
      split at h
      next heq =>
        rw [List.cons_append, heq]
        exact congrArg (c :: ·) (ih h)
      next => exact absurd h (by simp)

theorem matchLit_complete : ∀ (l r : List Char), matchLit l (l ++ r) = some r := by
  intro l r
  induction l with
  | nil => rfl
  | cons a l ih => simp [matchLit, ih]

theorem scanText_sound : ∀ {s t r : List Char},
    scanText s = some (t, r) → s = t ++ '"' :: r ∧ '\n' ∉ t ∧ '"' ∉ t := by
  intro s
  induction s with
  | nil => intro t r h; simp [scanText] at h
  | cons c cs ih =>
    intro t r h
    rw [scanText] at h
    split at h
    next hq =>
      cases h
      exact ⟨by rw [hq, List.nil_append], by simp, by simp⟩
    next hq =>
      split at h
      next => exact Option.noConfusion h
      next hn =>
        cases hrec : scanText cs with
        | none => rw [hrec] at h; exact Option.noConfusion h
        | some p =>
          obtain ⟨p1, p2⟩ := p
          rw [hrec] at h
          simp only [Option.map] at h
          cases h
          obtain ⟨he, hnl, hnq⟩ := ih hrec
          refine ⟨by rw [List.cons_append, ← he], ?_, ?_⟩
          · intro hc
            rcases List.mem_cons.mp hc with heq | hc2
            · exact hn heq.symm
            · exact hnl hc2
          · intro hc
            rcases List.mem_cons.mp hc with heq | hc2
            · exact hq heq.symm
            · exact hnq hc2

theorem scanText_complete : ∀ {t : List Char} (r : List Char),
    '\n' ∉ t → '"' ∉ t → scanText (t ++ '"' :: r) = some (t, r) := by
  intro t
  induction t with
  | nil =>
    intro r _ _
    rw [List.nil_append, scanText, if_pos rfl]
  | cons c t ih =>
    intro r hnl hq
    have hcq : ¬ c = '"' := fun hc => hq (by rw [hc]; exact List.mem_cons_self _ _)
    have hcn : ¬ c = '\n' := fun hc => hnl (by rw [hc]; exact List.mem_cons_self _ _)
    rw [List.cons_append, scanText, if_neg hcq, if_neg hcn,
      ih r (fun h => hnl (List.mem_cons_of_mem _ h)) (fun h => hq (List.mem_cons_of_mem _ h))]
    rfl

theorem scanMiddle_sound : ∀ {s m t r : List Char},
    scanMiddle s = some (m, t, r) → MiddleSplit s m t r := by
  intro s
  induction s with
  | nil => intro m t r h; simp [scanMiddle] at h
  | cons c cs ih =>
    intro m t r h
    rw [scanMiddle] at h
    split at h
    next rlit hlit =>
      split at h
      next p hp =>
        obtain ⟨p1, p2⟩ := p
        cases h
        obtain ⟨he, hnl, hnq⟩ := scanText_sound hp
        refine ⟨?_, by simp, hnl, hnq⟩
        rw [List.nil_append, matchLit_sound hlit, he]
      next hp =>
        split at h
        next => exact Option.noConfusion h
        next hn =>
          cases hrec : scanMiddle cs with
          | none => rw [hrec] at h; exact Option.noConfusion h
          | some q =>
            obtain ⟨q1, q2, q3⟩ := q
            rw [hrec] at h
            simp only [Option.map] at h
            cases h
            obtain ⟨he, hm, ht, hq⟩ := ih hrec
            refine ⟨by rw [List.cons_append, ← he], ?_, ht, hq⟩
            intro hc
            rcases List.mem_cons.mp hc with heq | hc2
            · exact hn heq.symm
            · exact hm hc2
    next hlit =>
      split at h
      next => exact Option.noConfusion h
      next hn =>
        cases hrec : scanMiddle cs with
        | none => rw [hrec] at h; exact Option.noConfusion h
        | some q =>
          obtain ⟨q1, q2, q3⟩ := q
          rw [hrec] at h
          simp only [Option.map] at h
          cases h
          obtain ⟨he, hm, ht, hq⟩ := ih hrec
          refine ⟨by rw [List.cons_append, ← he], ?_, ht, hq⟩
          intro hc
          rcases List.mem_cons.mp hc with heq | hc2
          · exact hn heq.symm
          · exact hm hc2

theorem scanMiddle_min : ∀ {s m t r : List Char},
    scanMiddle s = some (m, t, r) →
    ∀ m' t' r', MiddleSplit s m' t' r' →
      m.length ≤ m'.length ∧ (m' = m → t' = t ∧ r' = r) := by
  intro s
  induction s with
  | nil => intro m t r h; simp [scanMiddle] at h
  | cons c cs ih =>
    intro m t r h m' t' r' hsplit
    obtain ⟨hse, hm', ht', hq'⟩ := hsplit
    rw [scanMiddle] at h
    split at h
    next rlit hlit =>
      split at h
      next p hp =>
        cases h
        refine ⟨by simp, ?_⟩
        intro hm'nil
        subst hm'nil
        rw [List.nil_append] at hse
        have hrlit : rlit = t' ++ ('"' :: r') :=
          List.append_cancel_left ((matchLit_sound hlit).symm.trans hse)
        have hsc : scanText rlit = some (t', r') := by
          rw [hrlit]
          exact scanText_complete r' ht' hq'
        rw [hp] at hsc
        have hpe := Option.some.inj hsc
        exact ⟨(congrArg Prod.fst hpe).symm, (congrArg Prod.snd hpe).symm⟩
      next hp =>
        split at h
        next => exact Option.noConfusion h
        next hn =>
          cases hrec : scanMiddle cs with
          | none => rw [hrec] at h; exact Option.noConfusion h
          | some q =>
            obtain ⟨q1, q2, q3⟩ := q
            rw [hrec] at h
            simp only [Option.map] at h
            cases h
            cases m' with
            | nil =>
              exfalso
              rw [List.nil_append] at hse
              have hrlit : rlit = t' ++ ('"' :: r') :=
                List.append_cancel_left ((matchLit_sound hlit).symm.trans hse)
              have hsc : scanText rlit = some (t', r') := by
                rw [hrlit]
                exact scanText_complete r' ht' hq'
              rw [hp] at hsc
              exact Option.noConfusion hsc
            | cons c' m'' =>
              rw [List.cons_append] at hse
              have hch := List.cons.inj hse
              have hsub : MiddleSplit cs m'' t' r' :=
                ⟨hch.2, fun hx => hm' (List.mem_cons_of_mem _ hx), ht', hq'⟩
              obtain ⟨hlen, hrest⟩ := ih hrec m'' t' r' hsub
              constructor
              · simp only [List.length_cons]
                omega
              · intro heq
                have hm2 : m'' = q1 := (List.cons.inj heq).2
                exact hrest hm2
    next hlit =>
      split at h
      next => exact Option.noConfusion h
      next hn =>
        cases hrec : scanMiddle cs with
        | none => rw [hrec] at h; exact Option.noConfusion h
        | some q =>
          obtain ⟨q1, q2, q3⟩ := q
          rw [hrec] at h
          simp only [Option.map] at h
          cases h
          cases m' with
          | nil =>
            exfalso
            rw [List.nil_append] at hse
            rw [hse, matchLit_complete] at hlit
            exact Option.noConfusion hlit
          | cons c' m'' =>
            rw [List.cons_append] at hse
            have hch := List.cons.inj hse
            have hsub : MiddleSplit cs m'' t' r' :=
              ⟨hch.2, fun hx => hm' (List.mem_cons_of_mem _ hx), ht', hq'⟩
            obtain ⟨hlen, hrest⟩ := ih hrec m'' t' r' hsub
            constructor
            · simp only [List.length_cons]
              omega
            · intro heq
              have hm2 : m'' = q1 := (List.cons.inj heq).2
              exact hrest hm2

theorem scanMiddle_complete : ∀ (m' : List Char) (s t' r' : List Char),
    MiddleSplit s m' t' r' → ∃ x, scanMiddle s = some x := by
  intro m'
  induction m' with
  | nil =>
    intro s t' r' hsplit
    obtain ⟨hse, _, ht', hq'⟩ := hsplit
    rw [List.nil_append] at hse
    cases hs0 : s with
    | nil =>
      rw [hs0] at hse
      exact absurd hse.symm (by simp [textMarker])
    | cons c cs =>
      rw [hs0] at hse
      have hml : matchLit textMarker (c :: cs) = some (t' ++ ('"' :: r')) := by
        rw [hse]
        exact matchLit_complete _ _
      have hsc : scanText (t' ++ ('"' :: r')) = some (t', r') :=
        scanText_complete r' ht' hq'
      refine ⟨([], t', r'), ?_⟩
      rw [scanMiddle]
      simp only [hml, hsc]
  | cons c' m'' ih =>
    intro s t' r' hsplit
    obtain ⟨hse, hm', ht', hq'⟩ := hsplit
    rw [List.cons_append] at hse
    have hcn : ¬ c' = '\n' :=
      fun hc => hm' (by rw [hc]; exact List.mem_cons_self _ _)
    have hsub : MiddleSplit (m'' ++ (textMarker ++ (t' ++ ('"' :: r')))) m'' t' r' :=
      ⟨rfl, fun hx => hm' (List.mem_cons_of_mem _ hx), ht', hq'⟩
    obtain ⟨x, hx⟩ := ih _ t' r' hsub
    rw [hse, scanMiddle]
    cases hml : matchLit textMarker (c' :: (m'' ++ (textMarker ++ (t' ++ ('"' :: r'))))) with
    | some rlit =>
      cases hsc : scanText rlit with
      | some p => exact ⟨([], p.1, p.2), by simp only [hsc]⟩
      | none =>
        refine ⟨(c' :: x.1, x.2.1, x.2.2), ?_⟩
        simp only [hsc, if_neg hcn, hx, Option.map]
    | none =>
      refine ⟨(c' :: x.1, x.2.1, x.2.2), ?_⟩
      simp only [if_neg hcn, hx, Option.map]

theorem scanAuthor_sound : ∀ {s a m t r : List Char},
    scanAuthor s = some (a, m, t, r) → AuthorSplit s a m t r := by
  intro s
  induction s with
  | nil => intro a m t r h; simp [scanAuthor] at h
  | cons c cs ih =>
    intro a m t r h
    rw [scanAuthor] at h
    split at h
    next rlit hlit =>
      split at h
      next q hq0 =>
        obtain ⟨q1, q2, q3⟩ := q
        cases h
        obtain ⟨he, hm, ht, hq⟩ := scanMiddle_sound hq0
        refine ⟨?_, by simp, hm, ht, hq⟩
        rw [List.nil_append, matchLit_sound hlit, he]
      next hq0 =>
        split at h
        next => exact Option.noConfusion h
        next hn =>
          cases hrec : scanAuthor cs with
          | none => rw [hrec] at h; exact Option.noConfusion h
          | some q =>
            obtain ⟨q1, q2, q3, q4⟩ := q
            rw [hrec] at h
            simp only [Option.map] at h
            cases h
            obtain ⟨he, ha, hm, ht, hq⟩ := ih hrec
            refine ⟨by rw [List.cons_append, ← he], ?_, hm, ht, hq⟩
            intro hc
            rcases List.mem_cons.mp hc with heq | hc2
            · exact hn heq.symm
            · exact ha hc2
    next hlit =>
      split at h
      next => exact Option.noConfusion h
      next hn =>
        cases hrec : scanAuthor cs with
        | none => rw [hrec] at h; exact Option.noConfusion h
        | some q =>
          obtain ⟨q1, q2, q3, q4⟩ := q
          rw [hrec] at h
          simp only [Option.map] at h
          cases h
          obtain ⟨he, ha, hm, ht, hq⟩ := ih hrec
          refine ⟨by rw [List.cons_append, ← he], ?_, hm, ht, hq⟩
          intro hc
          rcases List.mem_cons.mp hc with heq | hc2
          · exact hn heq.symm
          · exact ha hc2

theorem scanAuthor_min : ∀ {s a m t r : List Char},
    scanAuthor s = some (a, m, t, r) →
    ∀ a' m' t' r', AuthorSplit s a' m' t' r' →
      a.length ≤ a'.length ∧
      (a' = a → m.length ≤ m'.length ∧ (m' = m → t' = t ∧ r' = r)) := by
  intro s
  induction s with
  | nil => intro a m t r h; simp [scanAuthor] at h
  | cons c cs ih =>
    intro a m t r h a' m' t' r' hsplit
    obtain ⟨hse, ha', hm', ht', hq'⟩ := hsplit
    rw [scanAuthor] at h
    split at h
    next rlit hlit =>
      split at h
      next q hq0 =>
        obtain ⟨q1, q2, q3⟩ := q
        cases h
        refine ⟨by simp, ?_⟩
        intro ha'nil
        subst ha'nil
        rw [List.nil_append] at hse
        have hrlit : rlit = m' ++ (textMarker ++ (t' ++ ('"' :: r'))) :=
          List.append_cancel_left ((matchLit_sound hlit).symm.trans hse)
        have hmsplit : MiddleSplit rlit m' t' r' := ⟨hrlit, hm', ht', hq'⟩
        exact scanMiddle_min hq0 m' t' r' hmsplit
      next hq0 =>
        split at h
        next => exact Option.noConfusion h
        next hn =>
          cases hrec : scanAuthor cs with
          | none => rw [hrec] at h; exact Option.noConfusion h
          | some q =>
            obtain ⟨q1, q2, q3, q4⟩ := q
            rw [hrec] at h
            simp only [Option.map] at h
            cases h
            cases a' with
            | nil =>
              exfalso
              rw [List.nil_append] at hse
              have hrlit : rlit = m' ++ (textMarker ++ (t' ++ ('"' :: r'))) :=
                List.append_cancel_left ((matchLit_sound hlit).symm.trans hse)
              obtain ⟨x, hx⟩ := scanMiddle_complete m' rlit t' r' ⟨hrlit, hm', ht', hq'⟩
              rw [hq0] at hx
              exact Option.noConfusion hx
            | cons c' a'' =>
              rw [List.cons_append] at hse
              have hch := List.cons.inj hse
              have hsub : AuthorSplit cs a'' m' t' r' :=
                ⟨hch.2, fun hx => ha' (List.mem_cons_of_mem _ hx), hm', ht', hq'⟩
              obtain ⟨hlen, hrest⟩ := ih hrec a'' m' t' r' hsub
              constructor
              · simp only [List.length_cons]
                omega
              · intro heq
                exact hrest (List.cons.inj heq).2
    next hlit =>
      split at h
      next => exact Option.noConfusion h
      next hn =>
        cases hrec : scanAuthor cs with
        | none => rw [hrec] at h; exact Option.noConfusion h
        | some q =>
          obtain ⟨q1, q2, q3, q4⟩ := q
          rw [hrec] at h
          simp only [Option.map] at h
          cases h
          cases a' with
          | nil =>
            exfalso
            rw [List.nil_append] at hse
            rw [hse, matchLit_complete] at hlit
            exact Option.noConfusion hlit
          | cons c' a'' =>
            rw [List.cons_append] at hse
            have hch := List.cons.inj hse
            have hsub : AuthorSplit cs a'' m' t' r' :=
              ⟨hch.2, fun hx => ha' (List.mem_cons_of_mem _ hx), hm', ht', hq'⟩
            obtain ⟨hlen, hrest⟩ := ih hrec a'' m' t' r' hsub
            constructor
            · simp only [List.length_cons]
              omega
            · intro heq
              exact hrest (List.cons.inj heq).2

theorem scanAuthor_complete : ∀ (a' : List Char) (s m' t' r' : List Char),
    AuthorSplit s a' m' t' r' → ∃ x, scanAuthor s = some x := by
  intro a'
  induction a' with
  | nil =>
    intro s m' t' r' hsplit
    obtain ⟨hse, _, hm', ht', hq'⟩ := hsplit
    rw [List.nil_append] at hse
    cases hs0 : s with
    | nil =>
      rw [hs0] at hse
      exact absurd hse.symm (by simp [sepMarker])
    | cons c cs =>
      rw [hs0] at hse
      have hml : matchLit sepMarker (c :: cs)
          = some (m' ++ (textMarker ++ (t' ++ ('"' :: r')))) := by
        rw [hse]
        exact matchLit_complete _ _
      obtain ⟨x, hx⟩ := scanMiddle_complete m' _ t' r'
        ⟨rfl, hm', ht', hq'⟩
      refine ⟨([], x.1, x.2.1, x.2.2), ?_⟩
      rw [scanAuthor]
      simp only [hml, hx]
  | cons c' a'' ih =>
    intro s m' t' r' hsplit
    obtain ⟨hse, ha', hm', ht', hq'⟩ := hsplit
    rw [List.cons_append] at hse
    have hcn : ¬ c' = '\n' :=
      fun hc => ha' (by rw [hc]; exact List.mem_cons_self _ _)
    have hsub : AuthorSplit (a'' ++ (sepMarker ++ (m' ++ (textMarker ++ (t' ++ ('"' :: r'))))))
        a'' m' t' r' :=
      ⟨rfl, fun hx => ha' (List.mem_cons_of_mem _ hx), hm', ht', hq'⟩
    obtain ⟨x, hx⟩ := ih _ m' t' r' hsub
    rw [hse, scanAuthor]
    cases hml : matchLit sepMarker
        (c' :: (a'' ++ (sepMarker ++ (m' ++ (textMarker ++ (t' ++ ('"' :: r'))))))) with
    | some rlit =>
      cases hmid : scanMiddle rlit with
      | some q => exact ⟨([], q.1, q.2.1, q.2.2), by simp only [hmid]⟩
      | none =>
        refine ⟨(c' :: x.1, x.2), ?_⟩
        simp only [hmid, if_neg hcn, hx, Option.map]
    | none =>
      refine ⟨(c' :: x.1, x.2), ?_⟩
      simp only [if_neg hcn, hx, Option.map]

theorem tryMatchAt_char : ∀ {s a t r : List Char},
    tryMatchAt s = some (a, t, r) →
    ∃ m, FullSplit s a m t r ∧
      ∀ a' m' t' r', FullSplit s a' m' t' r' →
        a.length ≤ a'.length ∧
        (a' = a → m.length ≤ m'.length ∧ (m' = m → t' = t ∧ r' = r)) := by
  intro s a t r h
  rw [tryMatchAt] at h
  split at h
  next => exact Option.noConfusion h
  next rlit hlit =>
    cases hsa : scanAuthor rlit with
    | none => rw [hsa] at h; exact Option.noConfusion h
    | some q =>
      obtain ⟨q1, q2, q3, q4⟩ := q
      rw [hsa] at h
      simp only [Option.map] at h
      cases h
      refine ⟨q2, ?_, ?_⟩
      · obtain ⟨he, ha, hm, ht, hq⟩ := scanAuthor_sound hsa
        exact ⟨by rw [matchLit_sound hlit, he], ha, hm, ht, hq⟩
      · intro a' m' t' r' hfull
        obtain ⟨hse, ha', hm', ht', hq'⟩ := hfull
        have hrlit : rlit = a' ++ (sepMarker ++ (m' ++ (textMarker ++ (t' ++ ('"' :: r'))))) :=
          List.append_cancel_left ((matchLit_sound hlit).symm.trans hse)
        exact scanAuthor_min hsa a' m' t' r' ⟨hrlit, ha', hm', ht', hq'⟩

theorem tryMatchAt_complete : ∀ {s a' m' t' r' : List Char},
    FullSplit s a' m' t' r' → tryMatchAt s ≠ none := by
  intro s a' m' t' r' hfull hnone
  obtain ⟨hse, ha', hm', ht', hq'⟩ := hfull
  rw [tryMatchAt] at hnone
  have hml : matchLit authorMarker s
      = some (a' ++ (sepMarker ++ (m' ++ (textMarker ++ (t' ++ ('"' :: r')))))) := by
    rw [hse]
    exact matchLit_complete _ _
  simp only [hml] at hnone
  obtain ⟨x, hx⟩ := scanAuthor_complete a' _ m' t' r' ⟨rfl, ha', hm', ht', hq'⟩
  rw [hx] at hnone
  simp [Option.map] at hnone

theorem findAll_sound : ∀ (n : Nat) (s : List Char), s.length ≤ n →
    ∀ p ∈ findAll s, ∃ pre a m t r, p = (a, t) ∧
      s = pre ++ (authorMarker
            ++ (a ++ (sepMarker ++ (m ++ (textMarker ++ (t ++ ('"' :: r))))))) ∧
      '\n' ∉ a ∧ '\n' ∉ m ∧ '\n' ∉ t ∧ '"' ∉ t := by
  intro n
  induction n with
  | zero =>
    intro s hlen p hp
    have hs : s = [] := List.length_eq_zero.mp (Nat.le_zero.mp hlen)
    rw [hs, findAll_nil] at hp
    exact absurd hp (List.not_mem_nil p)
  | succ n ih =>
    intro s hlen p hp
    cases s with
    | nil =>
      rw [findAll_nil] at hp
      exact absurd hp (List.not_mem_nil p)
    | cons c cs =>
      rw [findAll_cons] at hp
      cases hm : tryMatchAt (c :: cs) with
      | some q =>
        obtain ⟨q1, q2, q3⟩ := q
        rw [hm] at hp
        rcases List.mem_cons.mp hp with rfl | hp2
        · obtain ⟨mm, hfull, _⟩ := tryMatchAt_char hm
          obtain ⟨hse, ha, hmm, htt, hqq⟩ := hfull
          exact ⟨[], q1, mm, q2, q3, rfl,
            by rw [List.nil_append]; exact hse, ha, hmm, htt, hqq⟩
        · have hlt : q3.length < cs.length + 1 := by
            simpa using tryMatchAt_length hm
          simp only [List.length_cons] at hlen
          obtain ⟨pre, a, m0, t0, r0, hpe, hde, h1, h2, h3, h4⟩ :=
            ih q3 (by omega) p hp2
          obtain ⟨mm, hfull, _⟩ := tryMatchAt_char hm
          obtain ⟨hse, _, _, _, _⟩ := hfull
          refine ⟨(authorMarker
              ++ (q1 ++ (sepMarker ++ (mm ++ (textMarker ++ (q2 ++ ['"'])))))) ++ pre,
            a, m0, t0, r0, hpe, ?_, h1, h2, h3, h4⟩
          rw [hse, hde]
          simp [List.append_assoc, List.cons_append, List.singleton_append]
      | none =>
        rw [hm] at hp
        simp only [List.length_cons] at hlen
        obtain ⟨pre, a, m0, t0, r0, hpe, hde, h1, h2, h3, h4⟩ :=
          ih cs (by omega) p hp
        exact ⟨c :: pre, a, m0, t0, r0, hpe,
          by rw [List.cons_append, ← hde], h1, h2, h3, h4⟩

/-- **C3 (amended)**: at each position the matcher recognizes exactly the
decompositions `"author": " … ", … "text": " … "` whose lazily captured
parts span no newline; it returns the backtracking-minimal one (author
shortest first, then the gap, then the text, which is the unique run up to
the first quote); and the scan collects matches left to right,
non-overlapping, resuming after each match.  Unlike the literal claim, the
author capture ends at the next `",` from which the rest can match, so it
may itself contain double-quotes. -/
theorem claim_C3_amended (s : List Char) (c : Char) (cs : List Char) :
    (∀ a t r, tryMatchAt s = some (a, t, r) →
      ∃ m, FullSplit s a m t r ∧
        ∀ a' m' t' r', FullSplit s a' m' t' r' →
          a.length ≤ a'.length ∧
          (a' = a → m.length ≤ m'.length ∧ (m' = m → t' = t ∧ r' = r))) ∧
    ((∃ a m t r, FullSplit s a m t r) → tryMatchAt s ≠ none) ∧
    (findAll [] = []) ∧
    (findAll (c :: cs)
      = match tryMatchAt (c :: cs) with
        | some q => (q.1, q.2.1) :: findAll q.2.2
        | none => findAll cs) := by
  refine ⟨?_, ?_, findAll_nil, findAll_cons c cs⟩
  · intro a t r h
    exact tryMatchAt_char h
  · rintro ⟨a, m, t, r, hfull⟩
    exact tryMatchAt_complete hfull

theorem claim_C3_amended_witness :
    (tryMatchAt ("\"author\": \"a\", \"text\": \"b\"").data
        = some ("a".data, "b".data, ([] : List Char))) ∧
    (∃ m, FullSplit ("\"author\": \"a\", \"text\": \"b\"").data "a".data m "b".data [] ∧
      ∀ a' m' t' r', FullSplit ("\"author\": \"a\", \"text\": \"b\"").data a' m' t' r' →
        ("a".data).length ≤ a'.length ∧
        (a' = "a".data →
          m.length ≤ m'.length ∧ (m' = m → t' = "b".data ∧ r' = []))) :=
  ⟨by decide,
    (claim_C3_amended ("\"author\": \"a\", \"text\": \"b\"").data 'x' []).1
      "a".data "b".data [] (by decide)⟩

/-- **C3, counterexample**: the claim reads every captured value as "any run
of characters up to the next double-quote", so no captured author could
contain a double-quote.  But the author capture ends at the two-character
`",`, and under backtracking it runs past lone quotes: on
`"author": "a"b",c"text": "t"` the code captures the author `a"b`. -/
theorem claim_C3_counterexample :
    ¬ (∀ (s : List Char) (p : List Char × List Char), p ∈ findAll s → '"' ∉ p.1) := by
  intro hclaim
  have h := hclaim ("\"author\": \"a\"b\",c\"text\": \"t\"").data
    ("a\"b".data, "t".data) (by decide)
  exact h (by decide)

/-- **C10**: no extracted match spans a newline — every match decomposes its
file's text so that the author capture, the intervening gap, and the text
capture are all newline-free (and the three literal delimiters contain no
newline either, so the whole matched span sits on one line). -/
theorem claim_C10 (content : String) :
    ∀ p ∈ matchesOf content, ∃ pre a m t r,
      p = (String.mk a, String.mk t) ∧
      content.data = pre ++ (authorMarker
          ++ (a ++ (sepMarker ++ (m ++ (textMarker ++ (t ++ ('"' :: r))))))) ∧
      '\n' ∉ a ∧ '\n' ∉ m ∧ '\n' ∉ t ∧
      '\n' ∉ authorMarker ∧ '\n' ∉ sepMarker ∧ '\n' ∉ textMarker := by
  intro p hp
  rcases List.mem_map.mp hp with ⟨q, hq, rfl⟩
  obtain ⟨pre, a, m, t, r, hqe, hde, h1, h2, h3, _⟩ :=
    findAll_sound (content.data).length content.data le_rfl q hq
  refine ⟨pre, a, m, t, r, by rw [hqe], hde, h1, h2, h3, by decide, by decide, by decide⟩

theorem claim_C10_witness :
    ((("a" : String), ("b" : String)) ∈ matchesOf "\"author\": \"a\", \"text\": \"b\"") ∧
    (∃ pre a m t r,
      (("a" : String), ("b" : String)) = (String.mk a, String.mk t) ∧
      ("\"author\": \"a\", \"text\": \"b\"" : String).data = pre ++ (authorMarker
          ++ (a ++ (sepMarker ++ (m ++ (textMarker ++ (t ++ ('"' :: r))))))) ∧
      '\n' ∉ a ∧ '\n' ∉ m ∧ '\n' ∉ t ∧
      '\n' ∉ authorMarker ∧ '\n' ∉ sepMarker ∧ '\n' ∉ textMarker) :=
  ⟨by decide,
    claim_C10 "\"author\": \"a\", \"text\": \"b\"" ("a", "b") (by decide)⟩
